import Mathlib

/-!
Shallow embedding of the GeneticArt evolutionary engine (src/main.cpp) and
verification of its specified properties.

Modelling conventions:
* C doubles are modelled as rationals (`ℚ`); all arithmetic in the engine is
  elementary (+, -, *, /) and exact over `ℚ`.
* The process-wide random source `rand_r(&seed)` is modelled as an abstract
  stream `rng : ℕ → ℚ` of successive values of `(double)rand_r(&seed) / RAND_MAX`
  together with an explicit cursor `k : ℕ` threaded through every operation.
  The macro `U_RND` is `rng k` (consuming one position); the macro
  `RND = 2.0 * rand_r / RAND_MAX - 1.0` is `2 * rng k - 1`.
  Since `rand_r` yields integers in `[0, RAND_MAX]`, the stream values lie in
  `[0, 1]`; theorems that need this take it as the hypothesis `rngBounded`.
* Rendering happens through OpenGL and is outside the algorithmic core; the
  generation loop takes the fitness-of-a-genome map as an oracle parameter
  `fitOf : List Tri → ℤ` (the spec requires the renderer to be deterministic,
  so fitness is a function of the triangle list).  The pure pixel-comparison
  loop of `Chromosome::fitness` is embedded separately as `fitness` over
  explicit pixel buffers.
-/

namespace GeneticArt

/-- `#define POP_SIZE 30` — population size. -/
def POP_SIZE : ℕ := 30

/-- `#define N 150` — number of triangles per chromosome. -/
def N : ℕ := 150

/-- `#define OPACITY 0.15` — fixed alpha channel value for triangles. -/
def OPACITY : ℚ := 15 / 100

/-- glibc `RAND_MAX = 2^31 - 1`, the largest value returned by `rand_r`. -/
def RAND_MAX : ℕ := 2147483647

/-- The value of the `RND` macro, `2.0 * (double)rand_r(&seed) / RAND_MAX - 1.0`,
as a function of the integer `r` returned by `rand_r`. -/
def RND_of (r : ℕ) : ℚ := 2 * (r : ℚ) / (RAND_MAX : ℚ) - 1

/-- The argument `500 * RND` passed to `mutate_disturb` in `gl_idle`
(line `population[i].mutate_disturb(500 * RND);`). -/
def disturb_arg (r : ℕ) : ℚ := 500 * RND_of r

/-- One triangle of a chromosome: the row `point[i][0..2][0..1]` of
`double point[N][V][2]` (V = 3 vertices, each an x/y pair) flattened into six
fields `p⟨vertex⟩⟨coordinate⟩`, and the row `color[i][0..3]` of
`double color[N][4]` (RGBA) as `c0..c3`. -/
structure Tri where
  p00 : ℚ
  p01 : ℚ
  p10 : ℚ
  p11 : ℚ
  p20 : ℚ
  p21 : ℚ
  c0 : ℚ
  c1 : ℚ
  c2 : ℚ
  c3 : ℚ
deriving DecidableEq

/-- The all-zero triangle: one row of the value-initialized member arrays
`double point[N][V][2]{}` and `double color[N][4]{}` of a default-constructed
`Chromosome`.  Also used as the default for out-of-range list indexing. -/
def zeroTri : Tri := ⟨0, 0, 0, 0, 0, 0, 0, 0, 0, 0⟩

/-- `struct Chromosome`: `N` triangles plus the cached fitness `ll fit_val{}`.
(The `window` pixel buffer belongs to the external rendering plumbing.) -/
structure Chromosome where
  tris : List Tri
  fit_val : ℤ
deriving DecidableEq

/-- The vertex and RGB data of a triangle — everything the genetic operators
copy between chromosomes (the alpha channel `c3` is never copied). -/
def vcOf (t : Tri) : ℚ × ℚ × ℚ × ℚ × ℚ × ℚ × ℚ × ℚ × ℚ :=
  (t.p00, t.p01, t.p10, t.p11, t.p20, t.p21, t.c0, t.c1, t.c2)

/-- Copy all six vertex coordinates and the RGB channels from `src` into `dst`,
leaving `dst`'s alpha channel untouched.  This is the per-triangle effect of the
two assignment loops of `one_point_co` (which write `point[i][j][0..1]` and
`color[i][0..2]` but never `color[i][3]`). -/
def copyVC (src dst : Tri) : Tri :=
  { dst with
    p00 := src.p00, p01 := src.p01, p10 := src.p10
    p11 := src.p11, p20 := src.p20, p21 := src.p21
    c0 := src.c0, c1 := src.c1, c2 := src.c2 }

/-- The body of `one_point_co` after the cut `p` is drawn: triangle `i` is
copied (vertices and RGB) from parent `a` when `i < p`, else from parent `b`;
`i0` is the index of the head of the remaining lists.  The source uses two
loops over `i` (one for `point`, one for `color`) guarded by the same `i < p`;
their combined per-triangle effect is `copyVC`. -/
def one_point_go (p : ℤ) : ℕ → List Tri → List Tri → List Tri → List Tri
  | i0, ta :: as, tb :: bs, tc :: cs =>
    (if (i0 : ℤ) < p then copyVC ta tc else copyVC tb tc) ::
      one_point_go p (i0 + 1) as bs cs
  | _, _, _, _ => []

/-- `one_point_co(a, b, c)`: draws `int p = ceil(U_RND * N)` (one draw) and
copies triangle `i` wholesale from `a` when `i < p`, else from `b`, into `c`. -/
def one_point_co (rng : ℕ → ℚ) (k : ℕ) (a b c : List Tri) : List Tri × ℕ :=
  (one_point_go ⌈rng k * (N : ℚ)⌉ 0 a b c, k + 1)

/-- One iteration of the `i` loop of `n_points_co`, unrolling the inner `j`
loop over the `V = 3` vertices with coin values `u0, u1, u2`: each coin copies
vertex `j` of triangle `i` and the whole RGB of triangle `i` from parent `a`
(coin `< 0.5`) or parent `b` (otherwise) into the child, so the surviving RGB
is the one written by the last vertex coin `u2`.  Alpha is never written. -/
def nPointsTri (u0 u1 u2 : ℚ) (ta tb tc : Tri) : Tri :=
  let s0 :=
    if u0 < 1 / 2 then
      { tc with p00 := ta.p00, p01 := ta.p01, c0 := ta.c0, c1 := ta.c1, c2 := ta.c2 }
    else
      { tc with p00 := tb.p00, p01 := tb.p01, c0 := tb.c0, c1 := tb.c1, c2 := tb.c2 }
  let s1 :=
    if u1 < 1 / 2 then
      { s0 with p10 := ta.p10, p11 := ta.p11, c0 := ta.c0, c1 := ta.c1, c2 := ta.c2 }
    else
      { s0 with p10 := tb.p10, p11 := tb.p11, c0 := tb.c0, c1 := tb.c1, c2 := tb.c2 }
  let s2 :=
    if u2 < 1 / 2 then
      { s1 with p20 := ta.p20, p21 := ta.p21, c0 := ta.c0, c1 := ta.c1, c2 := ta.c2 }
    else
      { s1 with p20 := tb.p20, p21 := tb.p21, c0 := tb.c0, c1 := tb.c1, c2 := tb.c2 }
  s2

/-- The nested loops of `n_points_co`: three coin draws per triangle, one per
vertex, threaded left to right through the triangle list. -/
def n_points_go (rng : ℕ → ℚ) : ℕ → List Tri → List Tri → List Tri → List Tri × ℕ
  | k, ta :: as, tb :: bs, tc :: cs =>
    let rest := n_points_go rng (k + 3) as bs cs
    (nPointsTri (rng k) (rng (k + 1)) (rng (k + 2)) ta tb tc :: rest.1, rest.2)
  | k, _, _, _ => ([], k)

/-- `n_points_co(a, b, c)`: per-vertex uniform crossover (see `nPointsTri`). -/
def n_points_co (rng : ℕ → ℚ) (k : ℕ) (a b c : List Tri) : List Tri × ℕ :=
  n_points_go rng k a b c

/-- The range check `if (x < .0f || x > 1.f) x = U_RND;` used by
`mutate_disturb` on every vertex coordinate and color channel: an out-of-range
value is discarded and replaced by a fresh uniform draw (consuming one stream
position); an in-range value is kept (consuming nothing). -/
def fixRange (rng : ℕ → ℚ) (k : ℕ) (x : ℚ) : ℚ × ℕ :=
  if x < 0 ∨ x > 1 then (rng k, k + 1) else (x, k)

/-- Clamping to `[0, 1]` — stated only for contrast: the source never clamps. -/
def clampQ (x : ℚ) : ℚ := max 0 (min 1 x)

/-- One iteration of the vertex loop of `mutate_disturb`: with probability 25%
(one coin draw) both coordinates are perturbed by `RND / disturb` (two draws),
then each coordinate is passed through the range check. -/
def disturbVertex (rng : ℕ → ℚ) (d : ℚ) (k : ℕ) (x y : ℚ) : ℚ × ℚ × ℕ :=
  let per :=
    if rng k < 1 / 4 then
      (x + (2 * rng (k + 1) - 1) / d, y + (2 * rng (k + 2) - 1) / d, k + 3)
    else (x, y, k + 1)
  let fx := fixRange rng per.2.2 per.1
  let fy := fixRange rng fx.2 per.2.1
  (fx.1, fy.1, fy.2)

/-- The color part of one iteration of the triangle loop of `mutate_disturb`:
with probability 50% (one coin draw) each RGB channel is perturbed by
`10 * RND / disturb` (three draws), then each channel is range-checked. -/
def disturbColor (rng : ℕ → ℚ) (d : ℚ) (k : ℕ) (c0 c1 c2 : ℚ) : ℚ × ℚ × ℚ × ℕ :=
  let per :=
    if rng k < 1 / 2 then
      (c0 + 10 * (2 * rng (k + 1) - 1) / d, c1 + 10 * (2 * rng (k + 2) - 1) / d,
        c2 + 10 * (2 * rng (k + 3) - 1) / d, k + 4)
    else (c0, c1, c2, k + 1)
  let f0 := fixRange rng per.2.2.2 per.1
  let f1 := fixRange rng f0.2 per.2.1
  let f2 := fixRange rng f1.2 per.2.2.1
  (f0.1, f1.1, f2.1, f2.2)

/-- One iteration of the triangle loop of `mutate_disturb`: the three vertices
in order, then the colors.  The alpha channel `c3` is never touched. -/
def disturbTri (rng : ℕ → ℚ) (d : ℚ) (k : ℕ) (t : Tri) : Tri × ℕ :=
  let v0 := disturbVertex rng d k t.p00 t.p01
  let v1 := disturbVertex rng d v0.2.2 t.p10 t.p11
  let v2 := disturbVertex rng d v1.2.2 t.p20 t.p21
  let cc := disturbColor rng d v2.2.2 t.c0 t.c1 t.c2
  (⟨v0.1, v0.2.1, v1.1, v1.2.1, v2.1, v2.2.1, cc.1, cc.2.1, cc.2.2.1, t.c3⟩, cc.2.2.2)

/-- `Chromosome::mutate_disturb(double disturb)` over the triangle list. -/
def mutate_disturb (rng : ℕ → ℚ) (d : ℚ) : ℕ → List Tri → List Tri × ℕ
  | k, [] => ([], k)
  | k, t :: ts =>
    let h := disturbTri rng d k t
    let rest := mutate_disturb rng d h.2 ts
    (h.1 :: rest.1, rest.2)

/-- `if (U_RND > 0.5f) point[i][j][0] = U_RND;` from `mutate_change`: one coin
draw and, when it exceeds 0.5, one fresh value draw replacing the coordinate. -/
def changeCoord (rng : ℕ → ℚ) (k : ℕ) (x : ℚ) : ℚ × ℕ :=
  if rng k > 1 / 2 then (rng (k + 1), k + 2) else (x, k + 1)

/-- The color part of one iteration of `mutate_change`: one coin draw and, when
it exceeds 0.5, three fresh draws replacing R, G and B together. -/
def changeColor (rng : ℕ → ℚ) (k : ℕ) (c0 c1 c2 : ℚ) : ℚ × ℚ × ℚ × ℕ :=
  if rng k > 1 / 2 then (rng (k + 1), rng (k + 2), rng (k + 3), k + 4)
  else (c0, c1, c2, k + 1)

/-- One iteration of the triangle loop of `mutate_change`: the six coordinates
in source order (x then y for each of the three vertices), then the colors.
Alpha is never touched. -/
def changeTri (rng : ℕ → ℚ) (k : ℕ) (t : Tri) : Tri × ℕ :=
  let x0 := changeCoord rng k t.p00
  let y0 := changeCoord rng x0.2 t.p01
  let x1 := changeCoord rng y0.2 t.p10
  let y1 := changeCoord rng x1.2 t.p11
  let x2 := changeCoord rng y1.2 t.p20
  let y2 := changeCoord rng x2.2 t.p21
  let cc := changeColor rng y2.2 t.c0 t.c1 t.c2
  (⟨x0.1, y0.1, x1.1, y1.1, x2.1, y2.1, cc.1, cc.2.1, cc.2.2.1, t.c3⟩, cc.2.2.2)

/-- `Chromosome::mutate_change()` over the triangle list. -/
def mutate_change (rng : ℕ → ℚ) : ℕ → List Tri → List Tri × ℕ
  | k, [] => ([], k)
  | k, t :: ts =>
    let h := changeTri rng k t
    let rest := mutate_change rng h.2 ts
    (h.1 :: rest.1, rest.2)

/-- One RGB pixel of a buffer: three consecutive bytes of the `window` /
`input.pixel` byte arrays (values `0..255`, compared in `int` arithmetic). -/
structure Pixel where
  r : ℤ
  g : ℤ
  b : ℤ
deriving DecidableEq

/-- The pixel-comparison loop of `Chromosome::fitness()`: the loop walks the
two buffers with stride 3, adding the squared difference of each of the three
channels of every pixel into the accumulator `ll fit`. -/
def fitness : List Pixel → List Pixel → ℤ
  | w :: ws, p :: ps =>
    (w.r - p.r) * (w.r - p.r) + (w.g - p.g) * (w.g - p.g) +
      (w.b - p.b) * (w.b - p.b) + fitness ws ps
  | _, _ => 0

/-- Modelled from the spec wording (for comparison with `fitness`):
`score = Σ_pixels Σ_{c∈{R,G,B}} (rendered[c] - target[c])²`. -/
def fitness_spec (w p : List Pixel) : ℤ :=
  ((w.zip p).map fun q =>
    (q.1.r - q.2.r) ^ 2 + (q.1.g - q.2.g) ^ 2 + (q.1.b - q.2.b) ^ 2).sum

/-- One iteration of the triangle loop of `gen_pop`: nine fresh uniform draws
(x/y for the three vertices, then R, G, B) and the constant alpha `OPACITY`. -/
def gen_tri (rng : ℕ → ℚ) (k : ℕ) : Tri :=
  ⟨rng k, rng (k + 1), rng (k + 2), rng (k + 3), rng (k + 4), rng (k + 5),
    rng (k + 6), rng (k + 7), rng (k + 8), OPACITY⟩

/-- The inner loop of `gen_pop`: generate `n` fresh random triangles. -/
def gen_tris (rng : ℕ → ℚ) : ℕ → ℕ → List Tri × ℕ
  | k, 0 => ([], k)
  | k, n + 1 =>
    let rest := gen_tris rng (k + 9) n
    (gen_tri rng k :: rest.1, rest.2)

/-- `gen_pop(Chromosome *pop)`: overwrite every slot's `N` triangles with fresh
random data (leaving `fit_val` as the constructor left it). -/
def gen_pop (rng : ℕ → ℚ) : ℕ → List Chromosome → List Chromosome × ℕ
  | k, [] => ([], k)
  | k, c :: cs =>
    let t := gen_tris rng k N
    let rest := gen_pop rng t.2 cs
    ({ c with tris := t.1 } :: rest.1, rest.2)

/-- `std::sort(population, population + POP_SIZE, Chromosome::key)` with the
strict key `a.fit_val < b.fit_val`, modelled as a stable merge sort by the
key's reflexive closure: the result is a sorted permutation of the input, which
is what `std::sort` guarantees. -/
def std_sort (l : List Chromosome) : List Chromosome :=
  l.mergeSort fun a b => decide (a.fit_val ≤ b.fit_val)

/-- Parent selection `((int) round(U_RND * POP_SIZE)) % POP_SIZE` (for a
nonnegative argument the C `round` — half away from zero — agrees with
Mathlib's `round` — half up). -/
def pick (u : ℚ) : ℕ := (round (u * (POP_SIZE : ℚ))).toNat % POP_SIZE

/-- The start index `POP_SIZE - ceil(POP_SIZE * 0.75)` of the regeneration loop
of `gl_idle`; slots below it are the elite. -/
def elite_start : ℕ := POP_SIZE - (⌈(POP_SIZE : ℚ) * (75 / 100)⌉).toNat

/-- The body of the regeneration loop of `gl_idle` for slot `i`: with
probability 95% crossover of two uniformly picked parents (one-point or
per-vertex, one coin each), otherwise mutation of the slot's occupant (disturb
with a fresh `500 * RND` intensity with probability 95%, else full change);
in every case the slot's cached fitness is recomputed for the new occupant. -/
def regen_slot (rng : ℕ → ℚ) (fitOf : List Tri → ℤ) (pop : List Chromosome)
    (i k : ℕ) : List Chromosome × ℕ :=
  if rng k < 95 / 100 then
    let a := pick (rng (k + 1))
    let b := pick (rng (k + 2))
    let ga := (pop.getD a ⟨[], 0⟩).tris
    let gb := (pop.getD b ⟨[], 0⟩).tris
    let gc := (pop.getD i ⟨[], 0⟩).tris
    let child :=
      if rng (k + 3) < 1 / 2 then one_point_co rng (k + 4) ga gb gc
      else n_points_co rng (k + 4) ga gb gc
    (pop.set i ⟨child.1, fitOf child.1⟩, child.2)
  else
    if rng (k + 1) < 95 / 100 then
      let m := mutate_disturb rng (500 * (2 * rng (k + 2) - 1)) (k + 3)
        (pop.getD i ⟨[], 0⟩).tris
      (pop.set i ⟨m.1, fitOf m.1⟩, m.2)
    else
      let m := mutate_change rng (k + 2) (pop.getD i ⟨[], 0⟩).tris
      (pop.set i ⟨m.1, fitOf m.1⟩, m.2)

/-- The regeneration loop of `gl_idle`, running `cnt` slots starting at `i`. -/
def regen_from (rng : ℕ → ℚ) (fitOf : List Tri → ℤ) :
    ℕ → List Chromosome → ℕ → ℕ → List Chromosome × ℕ
  | 0, pop, _, k => (pop, k)
  | cnt + 1, pop, i, k =>
    let s := regen_slot rng fitOf pop i k
    regen_from rng fitOf cnt s.1 (i + 1) s.2

/-- One call of `gl_idle()` — one generation: sort the population by cached
fitness, then regenerate every non-elite slot. -/
def gl_idle (rng : ℕ → ℚ) (fitOf : List Tri → ℤ) (pop : List Chromosome)
    (k : ℕ) : List Chromosome × ℕ :=
  regen_from rng fitOf (POP_SIZE - elite_start) (std_sort pop) elite_start k

/-- `m` consecutive generations (`gl_idle` is invoked repeatedly by the GLUT
idle loop), threading the random cursor. -/
def gl_steps (rng : ℕ → ℚ) (fitOf : List Tri → ℤ) :
    ℕ → List Chromosome × ℕ → List Chromosome × ℕ
  | 0, s => s
  | m + 1, s => gl_steps rng fitOf m (gl_idle rng fitOf s.1 s.2)

/-- The initialization in `main`: default-construct the population (all-zero
arrays), call `gen_pop`, compute every slot's initial fitness, and sort. -/
def main_init (rng : ℕ → ℚ) (fitOf : List Tri → ℤ) : List Chromosome × ℕ :=
  let g := gen_pop rng 0 (List.replicate POP_SIZE ⟨List.replicate N zeroTri, 0⟩)
  let scored := g.1.map fun c => { c with fit_val := fitOf c.tris }
  (std_sort scored, g.2)

/-- Membership of a value in the closed unit interval. -/
def inUnit (x : ℚ) : Prop := 0 ≤ x ∧ x ≤ 1

/-- All vertex coordinates and all four color channels of a triangle lie in
`[0, 1]`. -/
def boundedTri (t : Tri) : Prop :=
  inUnit t.p00 ∧ inUnit t.p01 ∧ inUnit t.p10 ∧ inUnit t.p11 ∧ inUnit t.p20 ∧
    inUnit t.p21 ∧ inUnit t.c0 ∧ inUnit t.c1 ∧ inUnit t.c2 ∧ inUnit t.c3

/-- Every triangle of a genome is bounded. -/
def boundedTris (l : List Tri) : Prop := ∀ t ∈ l, boundedTri t

/-- The random stream delivers values of `rand_r / RAND_MAX`, hence in `[0,1]`. -/
def rngBounded (rng : ℕ → ℚ) : Prop := ∀ n, 0 ≤ rng n ∧ rng n ≤ 1

/-- Every triangle of a genome has alpha equal to `OPACITY`. -/
def alphaTris (l : List Tri) : Prop := ∀ t ∈ l, t.c3 = OPACITY

/-- Every triangle of every population member has alpha equal to `OPACITY`. -/
def alphaInv (pop : List Chromosome) : Prop :=
  ∀ c ∈ pop, ∀ t ∈ c.tris, t.c3 = OPACITY

/-! ### C6 — fitness is the sum of squared per-channel differences -/

/-- C6: for buffers of the same dimensions, `Chromosome::fitness` computes
exactly `Σ_pixels Σ_{c∈{R,G,B}} (rendered[c] - target[c])²`; the score is a
non-negative integer, and it is `0` iff the two buffers are identical. -/
theorem fitness_correct (w p : List Pixel) (hl : w.length = p.length) :
    fitness w p = fitness_spec w p ∧ 0 ≤ fitness w p ∧
      (fitness w p = 0 ↔ w = p) := by
  induction w generalizing p with
  | nil =>
    cases p with
    | nil => simp [fitness, fitness_spec]
    | cons q qs => simp at hl
  | cons a as ih =>
    cases p with
    | nil => simp at hl
    | cons q qs =>
      obtain ⟨h1, h2, h3⟩ := ih qs (by simpa using hl)
      have hfit : fitness (a :: as) (q :: qs) =
          (a.r - q.r) * (a.r - q.r) + (a.g - q.g) * (a.g - q.g) +
            (a.b - q.b) * (a.b - q.b) + fitness as qs := rfl
      have hspec : fitness_spec (a :: as) (q :: qs) =
          (a.r - q.r) ^ 2 + (a.g - q.g) ^ 2 + (a.b - q.b) ^ 2 +
            fitness_spec as qs := by
        simp [fitness_spec]
      have hr := mul_self_nonneg (a.r - q.r)
      have hg := mul_self_nonneg (a.g - q.g)
      have hb := mul_self_nonneg (a.b - q.b)
      refine ⟨by rw [hfit, hspec, h1]; ring, by rw [hfit]; linarith, ?_, ?_⟩
      · intro h0
        rw [hfit] at h0
        have e1 : (a.r - q.r) * (a.r - q.r) = 0 := le_antisymm (by linarith) hr
        have e2 : (a.g - q.g) * (a.g - q.g) = 0 := le_antisymm (by linarith) hg
        have e3 : (a.b - q.b) * (a.b - q.b) = 0 := le_antisymm (by linarith) hb
        have t0 : fitness as qs = 0 := le_antisymm (by linarith) h2
        have har : a.r = q.r := sub_eq_zero.mp (mul_self_eq_zero.mp e1)
        have hag : a.g = q.g := sub_eq_zero.mp (mul_self_eq_zero.mp e2)
        have habl : a.b = q.b := sub_eq_zero.mp (mul_self_eq_zero.mp e3)
        have ha : a = q := by cases a; cases q; simp_all
        simp [ha, h3.mp t0]
      · intro he
        obtain ⟨rfl, rfl⟩ : a = q ∧ as = qs := by simpa using he
        rw [hfit, h3.mpr rfl]
        ring

/-- Witness: `fitness_correct` applied to two concrete equal one-pixel
buffers. -/
theorem fitness_correct_witness :
    fitness [⟨3, 5, 7⟩] [⟨3, 5, 7⟩] = fitness_spec [⟨3, 5, 7⟩] [⟨3, 5, 7⟩] ∧
      0 ≤ fitness [⟨3, 5, 7⟩] [⟨3, 5, 7⟩] ∧
      (fitness [⟨3, 5, 7⟩] [⟨3, 5, 7⟩] = 0 ↔
        ([⟨3, 5, 7⟩] : List Pixel) = [⟨3, 5, 7⟩]) :=
  fitness_correct [⟨3, 5, 7⟩] [⟨3, 5, 7⟩] rfl

/-! ### C10 — the disturb intensity `500 * RND` is never exactly zero -/

/-- C10 counterexample: the claim asserts that for some draw the intensity
`500 * RND` is exactly zero.  It never is: `RND = 2 r / RAND_MAX - 1` with an
integer `r` and odd `RAND_MAX = 2^31 - 1` cannot equal `0`. -/
theorem disturb_arg_never_zero : ¬ ∃ r : ℕ, disturb_arg r = 0 := by
  rintro ⟨r, hr⟩
  rw [disturb_arg, RND_of, RAND_MAX] at hr
  have h0 : 2 * (r : ℚ) / 2147483647 - 1 = 0 := by
    rcases mul_eq_zero.mp hr with h | h
    · norm_num at h
    · exact_mod_cast h
  have h1 : 2 * (r : ℚ) = 2147483647 := by
    field_simp at h0
    linarith
  have h3 : 2 * r = 2147483647 := by
    have h2 : ((2 * r : ℕ) : ℚ) = ((2147483647 : ℕ) : ℚ) := by push_cast; linarith
    exact Nat.cast_injective h2
  omega

/-- C10 (amended): the intensity `500 * RND` passed to `mutate_disturb` lies in
`[-500, 500]`, can be negative (`r = 0` gives `-500`), and can be as small in
magnitude as `500 / RAND_MAX`, but is never exactly zero, so the
division-by-zero branch of a total embedding of `mutate_disturb` is not
reachable through `gl_idle`'s intensity argument. -/
theorem disturb_arg_props (r : ℕ) (hr : r ≤ RAND_MAX) :
    disturb_arg r ≠ 0 ∧ -500 ≤ disturb_arg r ∧ disturb_arg r ≤ 500 ∧
      500 / (RAND_MAX : ℚ) ≤ |disturb_arg r| ∧ disturb_arg 0 = -500 := by
  have hrM : (r : ℚ) ≤ 2147483647 := by
    rw [RAND_MAX] at hr
    exact_mod_cast Nat.cast_le.mpr hr
  have hz : (2 * (r : ℤ) - 2147483647) ≠ 0 := by omega
  have hre : disturb_arg r =
      500 * ((2 * (r : ℤ) - 2147483647 : ℤ) : ℚ) / 2147483647 := by
    rw [disturb_arg, RND_of, RAND_MAX]
    push_cast
    ring
  have hzq : ((2 * (r : ℤ) - 2147483647 : ℤ) : ℚ) ≠ 0 := Int.cast_ne_zero.mpr hz
  have hlo : (-2147483647 : ℚ) ≤ ((2 * (r : ℤ) - 2147483647 : ℤ) : ℚ) := by
    push_cast
    have : (0 : ℚ) ≤ (r : ℚ) := Nat.cast_nonneg r
    linarith
  have hhi : ((2 * (r : ℤ) - 2147483647 : ℤ) : ℚ) ≤ 2147483647 := by
    push_cast
    linarith
  have habs : (1 : ℚ) ≤ |((2 * (r : ℤ) - 2147483647 : ℤ) : ℚ)| := by
    rw [show |((2 * (r : ℤ) - 2147483647 : ℤ) : ℚ)| =
        ((|2 * (r : ℤ) - 2147483647| : ℤ) : ℚ) by push_cast; ring]
    exact_mod_cast Int.one_le_abs hz
  refine ⟨?_, ?_, ?_, ?_, ?_⟩
  · rw [hre]
    exact div_ne_zero (mul_ne_zero (by norm_num) hzq) (by norm_num)
  · rw [hre, le_div_iff (by norm_num)]
    linarith
  · rw [hre, div_le_iff (by norm_num)]
    linarith
  · rw [hre, abs_div, abs_mul, RAND_MAX]
    rw [show |(2147483647 : ℚ)| = 2147483647 by norm_num,
      show |(500 : ℚ)| = 500 by norm_num]
    rw [div_le_div_iff (by norm_num) (by norm_num)]
    push_cast at habs ⊢
    nlinarith [habs]
  · rw [disturb_arg, RND_of, RAND_MAX]
    norm_num

/-- Witness: `disturb_arg_props` at the draw `r = 1073741823`, the one closest
to the middle of the range (intensity closest to zero). -/
theorem disturb_arg_props_witness :
    disturb_arg 1073741823 ≠ 0 ∧ -500 ≤ disturb_arg 1073741823 ∧
      disturb_arg 1073741823 ≤ 500 ∧
      500 / (RAND_MAX : ℚ) ≤ |disturb_arg 1073741823| ∧ disturb_arg 0 = -500 :=
  disturb_arg_props 1073741823 (by norm_num [RAND_MAX])

/-! ### C7 — out-of-range values are re-randomized, never clamped -/

/-- C7: in disturb mutation, when the perturbed coordinate leaves `[0,1]` the
stored result is the next fresh uniform draw (discarding the perturbed value
entirely), it lies in `[0,1]` whenever the draws do, and the value clamping
would have stored is a boundary value `0` or `1`; the analogous statements
hold for a perturbed color channel.  (`fixRange` is the embedded range check
`if (x < .0f || x > 1.f) x = U_RND;` applied by `mutate_disturb`, through
`disturbVertex` and `disturbColor`, to every coordinate and channel.) -/
theorem disturb_rerandomizes (rng : ℕ → ℚ) (hr : rngBounded rng) (d : ℚ)
    (k k2 : ℕ) (x y c0 c1 c2 : ℚ)
    (hcoin : rng k < 1 / 4)
    (hout : x + (2 * rng (k + 1) - 1) / d < 0 ∨ x + (2 * rng (k + 1) - 1) / d > 1)
    (hcoin2 : rng k2 < 1 / 2)
    (hcout : c0 + 10 * (2 * rng (k2 + 1) - 1) / d < 0 ∨
      c0 + 10 * (2 * rng (k2 + 1) - 1) / d > 1) :
    (disturbVertex rng d k x y).1 = rng (k + 3) ∧
      inUnit (disturbVertex rng d k x y).1 ∧
      (disturbColor rng d k2 c0 c1 c2).1 = rng (k2 + 4) ∧
      inUnit (disturbColor rng d k2 c0 c1 c2).1 ∧
      (clampQ (x + (2 * rng (k + 1) - 1) / d) = 0 ∨
        clampQ (x + (2 * rng (k + 1) - 1) / d) = 1) := by
  have hv : (disturbVertex rng d k x y).1 = rng (k + 3) := by
    simp only [disturbVertex, fixRange]
    rw [if_pos hcoin]
    dsimp only
    rw [if_pos hout]
  have hc : (disturbColor rng d k2 c0 c1 c2).1 = rng (k2 + 4) := by
    simp only [disturbColor, fixRange]
    rw [if_pos hcoin2]
    dsimp only
    rw [if_pos hcout]
  refine ⟨hv, ?_, hc, ?_, ?_⟩
  · rw [hv]; exact ⟨(hr _).1, (hr _).2⟩
  · rw [hc]; exact ⟨(hr _).1, (hr _).2⟩
  · rcases hout with h | h
    · left
      rw [clampQ, min_eq_right (by linarith), max_eq_left (by linarith)]
    · right
      rw [clampQ, min_eq_left (by linarith), max_eq_right (by norm_num)]

/-- Witness: `disturb_rerandomizes` with coin draws `0`, fresh draws `1/2`,
intensity `1`, vertex coordinate `5` and color channel `-3`, both perturbed
out of range by `0`; the stored values are the fresh draws `1/2`, not the
clamp boundaries. -/
theorem disturb_rerandomizes_witness :
    (disturbVertex (fun n => if n = 0 then 0 else 1 / 2) 1 0 5 0).1 =
        (fun n : ℕ => if n = 0 then (0 : ℚ) else 1 / 2) 3 ∧
      inUnit (disturbVertex (fun n => if n = 0 then 0 else 1 / 2) 1 0 5 0).1 ∧
      (disturbColor (fun n => if n = 0 then 0 else 1 / 2) 1 0 (-3) 0 0).1 =
        (fun n : ℕ => if n = 0 then (0 : ℚ) else 1 / 2) 4 ∧
      inUnit (disturbColor (fun n => if n = 0 then 0 else 1 / 2) 1 0 (-3) 0 0).1 ∧
      (clampQ (5 + (2 * (fun n : ℕ => if n = 0 then (0 : ℚ) else 1 / 2) 1 - 1) / 1) = 0 ∨
        clampQ (5 + (2 * (fun n : ℕ => if n = 0 then (0 : ℚ) else 1 / 2) 1 - 1) / 1) = 1) := by
  have hb : rngBounded fun n => if n = 0 then (0 : ℚ) else 1 / 2 := by
    intro n
    by_cases h : n = 0 <;> simp [h] <;> norm_num
  exact disturb_rerandomizes (fun n => if n = 0 then 0 else 1 / 2) hb 1 0 0 5 0
    (-3) 0 0 (by norm_num) (by norm_num) (by norm_num) (by norm_num)

/-! ### C9 — self-pairing yields a copy of the parent -/

/-- `copyVC` preserves exactly the vertex and RGB data of its source. -/
theorem vcOf_copyVC (s d : Tri) : vcOf (copyVC s d) = vcOf s := rfl

/-- With both parents equal, `one_point_go` copies the parent on both sides of
the cut. -/
theorem one_point_go_self (p : ℤ) :
    ∀ (i0 : ℕ) (a c : List Tri), a.length = c.length →
      (one_point_go p i0 a a c).map vcOf = a.map vcOf := by
  intro i0 a
  induction a generalizing i0 with
  | nil => intro c _; simp [one_point_go]
  | cons t ts ih =>
    intro c hac
    cases c with
    | nil => simp at hac
    | cons u us =>
      simp [one_point_go, vcOf_copyVC, ih (i0 + 1) us (by simpa using hac)]

/-- With both parents equal, `nPointsTri` reproduces the parent's vertex and
RGB data whatever the three coins say. -/
theorem nPointsTri_self (u0 u1 u2 : ℚ) (t u : Tri) :
    vcOf (nPointsTri u0 u1 u2 t t u) = vcOf t := by
  unfold nPointsTri
  split_ifs <;> rfl

/-- With both parents equal, `n_points_go` reproduces the parent. -/
theorem n_points_go_self (rng : ℕ → ℚ) :
    ∀ (k : ℕ) (a c : List Tri), a.length = c.length →
      (n_points_go rng k a a c).1.map vcOf = a.map vcOf := by
  intro k a
  induction a generalizing k with
  | nil => intro c _; simp [n_points_go]
  | cons t ts ih =>
    intro c hac
    cases c with
    | nil => simp at hac
    | cons u us =>
      simp [n_points_go, nPointsTri_self, ih (k + 3) us (by simpa using hac)]

/-- C9: crossing a genome with itself — under either operator, whatever the
cut index or coins drawn — produces a child whose triangles (all vertices and
RGB color) equal the parent's, index by index. -/
theorem self_crossover (rng : ℕ → ℚ) (k : ℕ) (a c : List Tri)
    (hac : a.length = c.length) :
    (one_point_co rng k a a c).1.map vcOf = a.map vcOf ∧
      (n_points_co rng k a a c).1.map vcOf = a.map vcOf :=
  ⟨one_point_go_self _ 0 a c hac, n_points_go_self rng k a c hac⟩

/-- Witness: `self_crossover` on concrete singleton genomes. -/
theorem self_crossover_witness :
    (one_point_co (fun _ => 1 / 2) 0 [zeroTri] [zeroTri] [zeroTri]).1.map vcOf =
        [zeroTri].map vcOf ∧
      (n_points_co (fun _ => 1 / 2) 0 [zeroTri] [zeroTri] [zeroTri]).1.map vcOf =
        [zeroTri].map vcOf :=
  self_crossover (fun _ => 1 / 2) 0 [zeroTri] [zeroTri] rfl

/-! ### C2 — mutation keeps all coordinates and channels in [0,1] -/

/-- The range check always returns a value in `[0,1]` when the stream does. -/
theorem fixRange_mem (rng : ℕ → ℚ) (hr : rngBounded rng) (k : ℕ) (x : ℚ) :
    inUnit (fixRange rng k x).1 := by
  by_cases h : x < 0 ∨ x > 1
  · simp only [fixRange, if_pos h]
    exact ⟨(hr k).1, (hr k).2⟩
  · have h2 := h
    push_neg at h2
    simp only [fixRange, if_neg h]
    exact ⟨h2.1, h2.2⟩

/-- Both coordinates produced by the disturb vertex step are in `[0,1]`. -/
theorem disturbVertex_mem (rng : ℕ → ℚ) (hr : rngBounded rng) (d : ℚ) (k : ℕ)
    (x y : ℚ) :
    inUnit (disturbVertex rng d k x y).1 ∧ inUnit (disturbVertex rng d k x y).2.1 := by
  simp only [disturbVertex]
  exact ⟨fixRange_mem rng hr _ _, fixRange_mem rng hr _ _⟩

/-- All three channels produced by the disturb color step are in `[0,1]`. -/
theorem disturbColor_mem (rng : ℕ → ℚ) (hr : rngBounded rng) (d : ℚ) (k : ℕ)
    (c0 c1 c2 : ℚ) :
    inUnit (disturbColor rng d k c0 c1 c2).1 ∧
      inUnit (disturbColor rng d k c0 c1 c2).2.1 ∧
      inUnit (disturbColor rng d k c0 c1 c2).2.2.1 := by
  simp only [disturbColor]
  exact ⟨fixRange_mem rng hr _ _, fixRange_mem rng hr _ _, fixRange_mem rng hr _ _⟩

/-- A disturbed triangle is bounded (alpha is untouched, so its bound is
inherited from the input). -/
theorem disturbTri_mem (rng : ℕ → ℚ) (hr : rngBounded rng) (d : ℚ) (k : ℕ)
    (t : Tri) (ht : inUnit t.c3) : boundedTri (disturbTri rng d k t).1 := by
  simp only [disturbTri, boundedTri]
  exact ⟨(disturbVertex_mem rng hr d _ _ _).1, (disturbVertex_mem rng hr d _ _ _).2,
    (disturbVertex_mem rng hr d _ _ _).1, (disturbVertex_mem rng hr d _ _ _).2,
    (disturbVertex_mem rng hr d _ _ _).1, (disturbVertex_mem rng hr d _ _ _).2,
    (disturbColor_mem rng hr d _ _ _ _).1, (disturbColor_mem rng hr d _ _ _ _).2.1,
    (disturbColor_mem rng hr d _ _ _ _).2.2, ht⟩

/-- `mutate_disturb` keeps a bounded genome bounded. -/
theorem mutate_disturb_mem (rng : ℕ → ℚ) (hr : rngBounded rng) (d : ℚ) :
    ∀ (k : ℕ) (ts : List Tri), boundedTris ts →
      boundedTris (mutate_disturb rng d k ts).1 := by
  intro k ts
  induction ts generalizing k with
  | nil => intro h; simpa [mutate_disturb] using h
  | cons t ts ih =>
    intro hts t2 ht2
    simp only [mutate_disturb, List.mem_cons] at ht2
    rcases ht2 with rfl | h2
    · exact disturbTri_mem rng hr d k t
        ((hts t (by simp)).2.2.2.2.2.2.2.2.2)
    · exact ih _ (fun u hu => hts u (by simp [hu])) t2 h2

/-- A coordinate after the change step is in `[0,1]` when it was. -/
theorem changeCoord_mem (rng : ℕ → ℚ) (hr : rngBounded rng) (k : ℕ) (x : ℚ)
    (hx : inUnit x) : inUnit (changeCoord rng k x).1 := by
  rw [changeCoord]
  split
  · exact ⟨(hr _).1, (hr _).2⟩
  · exact hx

/-- Channels after the change color step are in `[0,1]` when they were. -/
theorem changeColor_mem (rng : ℕ → ℚ) (hr : rngBounded rng) (k : ℕ)
    (c0 c1 c2 : ℚ) (h0 : inUnit c0) (h1 : inUnit c1) (h2 : inUnit c2) :
    inUnit (changeColor rng k c0 c1 c2).1 ∧
      inUnit (changeColor rng k c0 c1 c2).2.1 ∧
      inUnit (changeColor rng k c0 c1 c2).2.2.1 := by
  rw [changeColor]
  split
  · exact ⟨⟨(hr _).1, (hr _).2⟩, ⟨(hr _).1, (hr _).2⟩, ⟨(hr _).1, (hr _).2⟩⟩
  · exact ⟨h0, h1, h2⟩

/-- A changed triangle is bounded when the input triangle is. -/
theorem changeTri_mem (rng : ℕ → ℚ) (hr : rngBounded rng) (k : ℕ) (t : Tri)
    (ht : boundedTri t) : boundedTri (changeTri rng k t).1 := by
  obtain ⟨h1, h2, h3, h4, h5, h6, h7, h8, h9, h10⟩ := ht
  simp only [changeTri, boundedTri]
  exact ⟨changeCoord_mem rng hr _ _ h1, changeCoord_mem rng hr _ _ h2,
    changeCoord_mem rng hr _ _ h3, changeCoord_mem rng hr _ _ h4,
    changeCoord_mem rng hr _ _ h5, changeCoord_mem rng hr _ _ h6,
    (changeColor_mem rng hr _ _ _ _ h7 h8 h9).1,
    (changeColor_mem rng hr _ _ _ _ h7 h8 h9).2.1,
    (changeColor_mem rng hr _ _ _ _ h7 h8 h9).2.2, h10⟩

/-- `mutate_change` keeps a bounded genome bounded. -/
theorem mutate_change_mem (rng : ℕ → ℚ) (hr : rngBounded rng) :
    ∀ (k : ℕ) (ts : List Tri), boundedTris ts →
      boundedTris (mutate_change rng k ts).1 := by
  intro k ts
  induction ts generalizing k with
  | nil => intro h; simpa [mutate_change] using h
  | cons t ts ih =>
    intro hts t2 ht2
    simp only [mutate_change, List.mem_cons] at ht2
    rcases ht2 with rfl | h2
    · exact changeTri_mem rng hr k t (hts t (by simp))
    · exact ih _ (fun u hu => hts u (by simp [hu])) t2 h2

/-- C2: a genome whose coordinates and channels lie in `[0,1]` stays that way
under `mutate_disturb` (for any intensity) and under `mutate_change`. -/
theorem mutation_bounded (rng : ℕ → ℚ) (hr : rngBounded rng) (d : ℚ)
    (k1 k2 : ℕ) (ts : List Tri) (hts : boundedTris ts) :
    boundedTris (mutate_disturb rng d k1 ts).1 ∧
      boundedTris (mutate_change rng k2 ts).1 :=
  ⟨mutate_disturb_mem rng hr d k1 ts hts, mutate_change_mem rng hr k2 ts hts⟩

/-- Witness: `mutation_bounded` on a concrete one-triangle genome. -/
theorem mutation_bounded_witness :
    boundedTris (mutate_disturb (fun _ => 1 / 2) 250 0 [zeroTri]).1 ∧
      boundedTris (mutate_change (fun _ => 1 / 2) 0 [zeroTri]).1 :=
  mutation_bounded (fun _ => 1 / 2) (fun _ => by norm_num) 250 0 0 [zeroTri]
    (by intro t ht
        simp only [List.mem_singleton] at ht
        subst ht
        norm_num [boundedTri, inUnit, zeroTri])

/-! ### C1 — uniform crossover draws its coins per vertex, not per triangle -/

/-- Field-level description of `nPointsTri`: each vertex comes whole from the
parent chosen by its own coin, and the RGB triple comes from the parent chosen
by the last vertex's coin; alpha is the child's own. -/
theorem nPointsTri_fields (u0 u1 u2 : ℚ) (ta tb tc : Tri) :
    ((nPointsTri u0 u1 u2 ta tb tc).p00, (nPointsTri u0 u1 u2 ta tb tc).p01) =
        (if u0 < 1 / 2 then (ta.p00, ta.p01) else (tb.p00, tb.p01)) ∧
      ((nPointsTri u0 u1 u2 ta tb tc).p10, (nPointsTri u0 u1 u2 ta tb tc).p11) =
        (if u1 < 1 / 2 then (ta.p10, ta.p11) else (tb.p10, tb.p11)) ∧
      ((nPointsTri u0 u1 u2 ta tb tc).p20, (nPointsTri u0 u1 u2 ta tb tc).p21) =
        (if u2 < 1 / 2 then (ta.p20, ta.p21) else (tb.p20, tb.p21)) ∧
      ((nPointsTri u0 u1 u2 ta tb tc).c0, (nPointsTri u0 u1 u2 ta tb tc).c1,
          (nPointsTri u0 u1 u2 ta tb tc).c2) =
        (if u2 < 1 / 2 then (ta.c0, ta.c1, ta.c2) else (tb.c0, tb.c1, tb.c2)) ∧
      (nPointsTri u0 u1 u2 ta tb tc).c3 = tc.c3 := by
  unfold nPointsTri
  split_ifs <;> exact ⟨rfl, rfl, rfl, rfl, rfl⟩

/-- Index-level description of the `n_points_co` loop: triangle `i` is built by
`nPointsTri` from the three coins `3i`, `3i+1`, `3i+2` positions into the
stream. -/
theorem n_points_go_getD (rng : ℕ → ℚ) :
    ∀ (k : ℕ) (a b c : List Tri), a.length = b.length → a.length = c.length →
      (n_points_go rng k a b c).1.length = a.length ∧
      ∀ i, i < a.length →
        (n_points_go rng k a b c).1.getD i zeroTri =
          nPointsTri (rng (k + 3 * i)) (rng (k + 3 * i + 1)) (rng (k + 3 * i + 2))
            (a.getD i zeroTri) (b.getD i zeroTri) (c.getD i zeroTri) := by
  intro k a
  induction a generalizing k with
  | nil =>
    intro b c hab hac
    exact ⟨by simp [n_points_go], fun i hi => absurd hi (by simp)⟩
  | cons t ts ih =>
    intro b c hab hac
    cases b with
    | nil => simp at hab
    | cons u us =>
      cases c with
      | nil => simp at hac
      | cons v vs =>
        obtain ⟨ihl, ihg⟩ := ih (k + 3) us vs (by simpa using hab) (by simpa using hac)
        refine ⟨by simp [n_points_go, ihl], fun i hi => ?_⟩
        cases i with
        | zero => simp [n_points_go]
        | succ j =>
          simp only [n_points_go, List.getD_cons_succ]
          have e0 : k + 3 * (j + 1) = k + 3 + 3 * j := by ring
          rw [e0]
          exact ihg j (by simpa using hi)

/-- C1 counterexample: with an all-zero parent A, an all-one parent B and coins
`0, 1, 1`, the child's triangle 0 takes vertex 0 from A but vertices 1, 2 and
the RGB color from B, so it is bit-identical to neither parent's triangle 0 —
`n_points_co` flips a coin per vertex, not a single coin per triangle. -/
theorem n_points_mixes_vertices :
    vcOf (((n_points_co (fun n => if n = 0 then 0 else 1) 0
          [⟨0, 0, 0, 0, 0, 0, 0, 0, 0, 0⟩] [⟨1, 1, 1, 1, 1, 1, 1, 1, 1, 1⟩]
          [zeroTri]).1).getD 0 zeroTri) ≠
        vcOf (⟨0, 0, 0, 0, 0, 0, 0, 0, 0, 0⟩ : Tri) ∧
      vcOf (((n_points_co (fun n => if n = 0 then 0 else 1) 0
          [⟨0, 0, 0, 0, 0, 0, 0, 0, 0, 0⟩] [⟨1, 1, 1, 1, 1, 1, 1, 1, 1, 1⟩]
          [zeroTri]).1).getD 0 zeroTri) ≠
        vcOf (⟨1, 1, 1, 1, 1, 1, 1, 1, 1, 1⟩ : Tri) := by
  constructor <;>
    · norm_num [n_points_co, n_points_go, nPointsTri, vcOf, zeroTri]

/-- C1 (amended): in `n_points_co` each vertex `j` of each triangle `i` gets
its own coin — vertex `j` (both coordinates) is copied whole from parent A when
coin `3i+j` is below 0.5 and from parent B otherwise, and the triangle's RGB
triple is copied whole from the parent chosen by the triangle's last vertex
coin `3i+2`; so no individual vertex or RGB triple blends the parents, but a
child triangle may combine vertices of both. -/
theorem n_points_per_vertex (rng : ℕ → ℚ) (k : ℕ) (a b c : List Tri)
    (hab : a.length = b.length) (hac : a.length = c.length) :
    (n_points_co rng k a b c).1.length = a.length ∧
      ∀ i, i < a.length →
        ((((n_points_co rng k a b c).1.getD i zeroTri).p00,
            ((n_points_co rng k a b c).1.getD i zeroTri).p01) =
          (if rng (k + 3 * i) < 1 / 2 then
            ((a.getD i zeroTri).p00, (a.getD i zeroTri).p01)
          else ((b.getD i zeroTri).p00, (b.getD i zeroTri).p01))) ∧
        ((((n_points_co rng k a b c).1.getD i zeroTri).p10,
            ((n_points_co rng k a b c).1.getD i zeroTri).p11) =
          (if rng (k + 3 * i + 1) < 1 / 2 then
            ((a.getD i zeroTri).p10, (a.getD i zeroTri).p11)
          else ((b.getD i zeroTri).p10, (b.getD i zeroTri).p11))) ∧
        ((((n_points_co rng k a b c).1.getD i zeroTri).p20,
            ((n_points_co rng k a b c).1.getD i zeroTri).p21) =
          (if rng (k + 3 * i + 2) < 1 / 2 then
            ((a.getD i zeroTri).p20, (a.getD i zeroTri).p21)
          else ((b.getD i zeroTri).p20, (b.getD i zeroTri).p21))) ∧
        ((((n_points_co rng k a b c).1.getD i zeroTri).c0,
            ((n_points_co rng k a b c).1.getD i zeroTri).c1,
            ((n_points_co rng k a b c).1.getD i zeroTri).c2) =
          (if rng (k + 3 * i + 2) < 1 / 2 then
            ((a.getD i zeroTri).c0, (a.getD i zeroTri).c1, (a.getD i zeroTri).c2)
          else ((b.getD i zeroTri).c0, (b.getD i zeroTri).c1, (b.getD i zeroTri).c2))) := by
  obtain ⟨hl, hg⟩ := n_points_go_getD rng k a b c hab hac
  refine ⟨hl, fun i hi => ?_⟩
  have h := hg i hi
  simp only [n_points_co] at *
  rw [h]
  obtain ⟨f1, f2, f3, f4, _⟩ := nPointsTri_fields (rng (k + 3 * i))
    (rng (k + 3 * i + 1)) (rng (k + 3 * i + 2)) (a.getD i zeroTri)
    (b.getD i zeroTri) (c.getD i zeroTri)
  exact ⟨f1, f2, f3, f4⟩

/-- Witness: `n_points_per_vertex` on concrete singleton genomes. -/
theorem n_points_per_vertex_witness :
    (n_points_co (fun _ => 1 / 2) 0 [zeroTri] [zeroTri] [zeroTri]).1.length =
        [zeroTri].length ∧
      ∀ i, i < [zeroTri].length →
        ((((n_points_co (fun _ => (1 : ℚ) / 2) 0 [zeroTri] [zeroTri] [zeroTri]).1.getD i
              zeroTri).p00,
            (((n_points_co (fun _ => (1 : ℚ) / 2) 0 [zeroTri] [zeroTri]
              [zeroTri]).1.getD i zeroTri)).p01) =
          (if (fun _ : ℕ => (1 : ℚ) / 2) (0 + 3 * i) < 1 / 2 then
            (([zeroTri].getD i zeroTri).p00, ([zeroTri].getD i zeroTri).p01)
          else (([zeroTri].getD i zeroTri).p00, ([zeroTri].getD i zeroTri).p01))) ∧
        ((((n_points_co (fun _ => (1 : ℚ) / 2) 0 [zeroTri] [zeroTri] [zeroTri]).1.getD i
              zeroTri).p10,
            (((n_points_co (fun _ => (1 : ℚ) / 2) 0 [zeroTri] [zeroTri]
              [zeroTri]).1.getD i zeroTri)).p11) =
          (if (fun _ : ℕ => (1 : ℚ) / 2) (0 + 3 * i + 1) < 1 / 2 then
            (([zeroTri].getD i zeroTri).p10, ([zeroTri].getD i zeroTri).p11)
          else (([zeroTri].getD i zeroTri).p10, ([zeroTri].getD i zeroTri).p11))) ∧
        ((((n_points_co (fun _ => (1 : ℚ) / 2) 0 [zeroTri] [zeroTri] [zeroTri]).1.getD i
              zeroTri).p20,
            (((n_points_co (fun _ => (1 : ℚ) / 2) 0 [zeroTri] [zeroTri]
              [zeroTri]).1.getD i zeroTri)).p21) =
          (if (fun _ : ℕ => (1 : ℚ) / 2) (0 + 3 * i + 2) < 1 / 2 then
            (([zeroTri].getD i zeroTri).p20, ([zeroTri].getD i zeroTri).p21)
          else (([zeroTri].getD i zeroTri).p20, ([zeroTri].getD i zeroTri).p21))) ∧
        ((((n_points_co (fun _ => (1 : ℚ) / 2) 0 [zeroTri] [zeroTri] [zeroTri]).1.getD i
              zeroTri).c0,
            (((n_points_co (fun _ => (1 : ℚ) / 2) 0 [zeroTri] [zeroTri]
              [zeroTri]).1.getD i zeroTri)).c1,
            (((n_points_co (fun _ => (1 : ℚ) / 2) 0 [zeroTri] [zeroTri]
              [zeroTri]).1.getD i zeroTri)).c2) =
          (if (fun _ : ℕ => (1 : ℚ) / 2) (0 + 3 * i + 2) < 1 / 2 then
            (([zeroTri].getD i zeroTri).c0, ([zeroTri].getD i zeroTri).c1,
              ([zeroTri].getD i zeroTri).c2)
          else (([zeroTri].getD i zeroTri).c0, ([zeroTri].getD i zeroTri).c1,
              ([zeroTri].getD i zeroTri).c2))) :=
  n_points_per_vertex (fun _ => 1 / 2) 0 [zeroTri] [zeroTri] [zeroTri] rfl rfl

/-! ### C5 — one-point crossover -/

/-- Index-level description of the `one_point_co` loops: triangle `i` is copied
from parent `a` when `i0 + i < p` and from parent `b` otherwise. -/
theorem one_point_go_getD (p : ℤ) :
    ∀ (i0 : ℕ) (a b c : List Tri), a.length = b.length → a.length = c.length →
      (one_point_go p i0 a b c).length = a.length ∧
      ∀ i, i < a.length →
        (one_point_go p i0 a b c).getD i zeroTri =
          if ((i0 + i : ℕ) : ℤ) < p then
            copyVC (a.getD i zeroTri) (c.getD i zeroTri)
          else copyVC (b.getD i zeroTri) (c.getD i zeroTri) := by
  intro i0 a
  induction a generalizing i0 with
  | nil =>
    intro b c hab hac
    exact ⟨by simp [one_point_go], fun i hi => absurd hi (by simp)⟩
  | cons t ts ih =>
    intro b c hab hac
    cases b with
    | nil => simp at hab
    | cons u us =>
      cases c with
      | nil => simp at hac
      | cons v vs =>
        obtain ⟨ihl, ihg⟩ :=
          ih (i0 + 1) us vs (by simpa using hab) (by simpa using hac)
        refine ⟨by simp [one_point_go, ihl], fun i hi => ?_⟩
        cases i with
        | zero => simp [one_point_go]
        | succ j =>
          simp only [one_point_go, List.getD_cons_succ]
          have e0 : i0 + (j + 1) = i0 + 1 + j := by ring
          rw [e0]
          exact ihg j (by simpa using hi)

/-- C5: `one_point_co` draws `p = ceil(u * N)` with `p ∈ [0, N]`, copies all
vertices and RGB of triangle `i` from parent A when `i < p` and from parent B
when `i ≥ p`; in particular `p = 0` yields parent B entirely and `p = N`
yields parent A entirely. -/
theorem one_point_correct (rng : ℕ → ℚ) (k : ℕ) (a b c : List Tri)
    (ha : a.length = N) (hb : b.length = N) (hc : c.length = N)
    (hu0 : 0 ≤ rng k) (hu1 : rng k ≤ 1) :
    0 ≤ ⌈rng k * (N : ℚ)⌉ ∧ ⌈rng k * (N : ℚ)⌉ ≤ (N : ℤ) ∧
      (one_point_co rng k a b c).1.length = N ∧
      (∀ i : ℕ, i < N →
        (((i : ℤ) < ⌈rng k * (N : ℚ)⌉ →
          vcOf ((one_point_co rng k a b c).1.getD i zeroTri) =
            vcOf (a.getD i zeroTri)) ∧
        (⌈rng k * (N : ℚ)⌉ ≤ (i : ℤ) →
          vcOf ((one_point_co rng k a b c).1.getD i zeroTri) =
            vcOf (b.getD i zeroTri)))) ∧
      (⌈rng k * (N : ℚ)⌉ = 0 →
        (one_point_co rng k a b c).1.map vcOf = b.map vcOf) ∧
      (⌈rng k * (N : ℚ)⌉ = (N : ℤ) →
        (one_point_co rng k a b c).1.map vcOf = a.map vcOf) := by
  obtain ⟨hl, hg⟩ := one_point_go_getD ⌈rng k * (N : ℚ)⌉ 0 a b c
    (ha.trans hb.symm) (ha.trans hc.symm)
  have hp0 : 0 ≤ ⌈rng k * (N : ℚ)⌉ :=
    Int.ceil_nonneg (mul_nonneg hu0 (by norm_num [N]))
  have hpN : ⌈rng k * (N : ℚ)⌉ ≤ (N : ℤ) := by
    rw [Int.ceil_le]
    push_cast
    nlinarith [hu1]
  have hlen : (one_point_co rng k a b c).1.length = N := by
    simpa [one_point_co, ha] using hl
  have hkey : ∀ i : ℕ, i < N →
      (((i : ℤ) < ⌈rng k * (N : ℚ)⌉ →
        vcOf ((one_point_co rng k a b c).1.getD i zeroTri) =
          vcOf (a.getD i zeroTri)) ∧
      (⌈rng k * (N : ℚ)⌉ ≤ (i : ℤ) →
        vcOf ((one_point_co rng k a b c).1.getD i zeroTri) =
          vcOf (b.getD i zeroTri))) := by
    intro i hi
    have h := hg i (ha ▸ hi)
    simp only [one_point_co] at *
    rw [h]
    simp only [Nat.zero_add]
    constructor
    · intro hlt
      rw [if_pos hlt, vcOf_copyVC]
    · intro hge
      rw [if_neg (not_lt.mpr hge), vcOf_copyVC]
  refine ⟨hp0, hpN, hlen, hkey, ?_, ?_⟩
  · intro hz
    refine List.ext_getElem (by rw [List.length_map, hlen, List.length_map, hb]) ?_
    intro n h1 h2
    have hn : n < N := by
      rw [List.length_map, hlen] at h1
      exact h1
    rw [List.getElem_map, List.getElem_map]
    rw [← List.getD_eq_getElem _ zeroTri, ← List.getD_eq_getElem _ zeroTri]
    exact (hkey n hn).2 (by rw [hz]; exact Int.ofNat_nonneg n)
  · intro hz
    refine List.ext_getElem (by rw [List.length_map, hlen, List.length_map, ha]) ?_
    intro n h1 h2
    have hn : n < N := by
      rw [List.length_map, hlen] at h1
      exact h1
    rw [List.getElem_map, List.getElem_map]
    rw [← List.getD_eq_getElem _ zeroTri, ← List.getD_eq_getElem _ zeroTri]
    exact (hkey n hn).1 (by rw [hz]; exact_mod_cast hn)

/-- Witness: `one_point_correct` with parent A all-ones, parent B all-zeros,
`u = 1/2` (so `p = 75`). -/
theorem one_point_correct_witness :
    0 ≤ ⌈(fun _ : ℕ => (1 : ℚ) / 2) 0 * (N : ℚ)⌉ ∧
      ⌈(fun _ : ℕ => (1 : ℚ) / 2) 0 * (N : ℚ)⌉ ≤ (N : ℤ) ∧
      (one_point_co (fun _ => 1 / 2) 0 (List.replicate 150 ⟨1, 1, 1, 1, 1, 1, 1, 1, 1, 1⟩)
          (List.replicate 150 zeroTri) (List.replicate 150 zeroTri)).1.length = N ∧
      (∀ i : ℕ, i < N →
        (((i : ℤ) < ⌈(fun _ : ℕ => (1 : ℚ) / 2) 0 * (N : ℚ)⌉ →
          vcOf ((one_point_co (fun _ => 1 / 2) 0
              (List.replicate 150 ⟨1, 1, 1, 1, 1, 1, 1, 1, 1, 1⟩)
              (List.replicate 150 zeroTri) (List.replicate 150 zeroTri)).1.getD i zeroTri) =
            vcOf ((List.replicate 150 (⟨1, 1, 1, 1, 1, 1, 1, 1, 1, 1⟩ : Tri)).getD i zeroTri)) ∧
        (⌈(fun _ : ℕ => (1 : ℚ) / 2) 0 * (N : ℚ)⌉ ≤ (i : ℤ) →
          vcOf ((one_point_co (fun _ => 1 / 2) 0
              (List.replicate 150 ⟨1, 1, 1, 1, 1, 1, 1, 1, 1, 1⟩)
              (List.replicate 150 zeroTri) (List.replicate 150 zeroTri)).1.getD i zeroTri) =
            vcOf ((List.replicate 150 zeroTri).getD i zeroTri)))) ∧
      (⌈(fun _ : ℕ => (1 : ℚ) / 2) 0 * (N : ℚ)⌉ = 0 →
        (one_point_co (fun _ => 1 / 2) 0 (List.replicate 150 ⟨1, 1, 1, 1, 1, 1, 1, 1, 1, 1⟩)
            (List.replicate 150 zeroTri) (List.replicate 150 zeroTri)).1.map vcOf =
          (List.replicate 150 zeroTri).map vcOf) ∧
      (⌈(fun _ : ℕ => (1 : ℚ) / 2) 0 * (N : ℚ)⌉ = (N : ℤ) →
        (one_point_co (fun _ => 1 / 2) 0 (List.replicate 150 ⟨1, 1, 1, 1, 1, 1, 1, 1, 1, 1⟩)
            (List.replicate 150 zeroTri) (List.replicate 150 zeroTri)).1.map vcOf =
          (List.replicate 150 (⟨1, 1, 1, 1, 1, 1, 1, 1, 1, 1⟩ : Tri)).map vcOf) :=
  one_point_correct (fun _ => 1 / 2) 0 (List.replicate 150 ⟨1, 1, 1, 1, 1, 1, 1, 1, 1, 1⟩)
    (List.replicate 150 zeroTri) (List.replicate 150 zeroTri)
    (by simp [N]) (by simp [N]) (by simp [N]) (by norm_num) (by norm_num)

/-! ### Generation-loop lemmas (C3, C4) -/

/-- `std_sort` permutes the population. -/
theorem std_sort_perm (l : List Chromosome) : (std_sort l).Perm l :=
  List.mergeSort_perm l _

/-- `std_sort` sorts by non-decreasing cached fitness. -/
theorem std_sort_sorted (l : List Chromosome) :
    (std_sort l).Pairwise fun a b => a.fit_val ≤ b.fit_val := by
  have h := @List.sorted_mergeSort Chromosome
    (fun a b => decide (a.fit_val ≤ b.fit_val))
    (fun a b c hab hbc => by
      simp only [decide_eq_true_eq] at hab hbc ⊢
      exact le_trans hab hbc)
    (fun a b => by
      simpa only [Bool.or_eq_true, decide_eq_true_eq] using
        le_total a.fit_val b.fit_val)
    l
  exact h.imp fun hab => by simpa only [decide_eq_true_eq] using hab

/-- Sorting an already-sorted population is the identity. -/
theorem std_sort_of_sorted {l : List Chromosome}
    (h : l.Pairwise fun a b => a.fit_val ≤ b.fit_val) : std_sort l = l :=
  List.mergeSort_of_sorted (h.imp fun hab => decide_eq_true hab)

/-- The regeneration loop starts at slot `30 - ceil(30 * 0.75) = 7`. -/
theorem elite_start_eq : elite_start = 7 := by
  have hc : ⌈(POP_SIZE : ℚ) * (75 / 100)⌉ = 23 := by
    unfold POP_SIZE
    rw [Int.ceil_eq_iff]
    norm_num
  unfold elite_start
  rw [hc]
  rfl

/-- The regeneration loop never touches slots below its start index. -/
theorem regen_from_getElem_lt (rng : ℕ → ℚ) (fitOf : List Tri → ℤ) :
    ∀ (cnt : ℕ) (pop : List Chromosome) (i k j : ℕ), j < i →
      ((regen_from rng fitOf cnt pop i k).1)[j]? = pop[j]? := by
  intro cnt
  induction cnt with
  | zero => intro pop i k j hj; rfl
  | succ m ih =>
    intro pop i k j hj
    simp only [regen_from]
    rw [ih _ (i + 1) _ j (by omega)]
    have hset : ∀ x : Chromosome, (pop.set i x)[j]? = pop[j]? :=
      fun x => List.getElem?_set_ne (by omega)
    simp only [regen_slot]
    split_ifs <;> exact hset _

/-- The regeneration loop preserves the population size. -/
theorem regen_from_length (rng : ℕ → ℚ) (fitOf : List Tri → ℤ) :
    ∀ (cnt : ℕ) (pop : List Chromosome) (i k : ℕ),
      ((regen_from rng fitOf cnt pop i k).1).length = pop.length := by
  intro cnt
  induction cnt with
  | zero => intro pop i k; rfl
  | succ m ih =>
    intro pop i k
    simp only [regen_from]
    rw [ih]
    simp only [regen_slot]
    split_ifs <;> exact List.length_set pop i _

/-- C4: for a population already sorted ascending by cached fitness, one
generation (`gl_idle`) leaves every elite slot — index below
`elite_start` — bit-identical: same triangles, colors and cached `fit_val`;
only non-elite slots are written. -/
theorem elitism_preserved (rng : ℕ → ℚ) (fitOf : List Tri → ℤ)
    (pop : List Chromosome) (k : ℕ)
    (hs : pop.Pairwise fun a b => a.fit_val ≤ b.fit_val) :
    ∀ j, j < elite_start → ((gl_idle rng fitOf pop k).1)[j]? = pop[j]? := by
  intro j hj
  unfold gl_idle
  rw [std_sort_of_sorted hs]
  exact regen_from_getElem_lt rng fitOf _ pop elite_start k j hj

/-- Witness: `elitism_preserved` for slot 0 of a concrete sorted population. -/
theorem elitism_preserved_witness :
    ((gl_idle (fun _ => 1 / 2) (fun _ => 0) (List.replicate 30 ⟨[], 0⟩) 0).1)[0]? =
      (List.replicate 30 (⟨[], 0⟩ : Chromosome))[0]? :=
  elitism_preserved (fun _ => 1 / 2) (fun _ => 0) (List.replicate 30 ⟨[], 0⟩) 0
    (by refine List.pairwise_iff_getElem.mpr ?_
        intro i j hi hj hij
        simp only [List.getElem_replicate]
        exact le_refl _)
    0 (by rw [elite_start_eq]; omega)

/-- A permutation of a list of fitness values has the same minimum. -/
theorem perm_minimum {l₁ l₂ : List ℤ} (h : l₁.Perm l₂) :
    l₁.minimum = l₂.minimum :=
  le_antisymm
    (List.le_minimum_of_forall_le fun _ ha =>
      List.minimum_le_of_mem' (h.mem_iff.mpr ha))
    (List.le_minimum_of_forall_le fun _ ha =>
      List.minimum_le_of_mem' (h.mem_iff.mp ha))

/-- C3: across one generation the minimum cached fitness in the population
never increases: slot 0 of the sorted population holds the old minimum and is
elite, so it survives; regenerated slots can only add values. -/
theorem best_monotone (rng : ℕ → ℚ) (fitOf : List Tri → ℤ)
    (pop : List Chromosome) (k : ℕ) (hne : pop ≠ []) :
    ((gl_idle rng fitOf pop k).1.map Chromosome.fit_val).minimum ≤
      (pop.map Chromosome.fit_val).minimum := by
  have hperm : (std_sort pop).Perm pop := std_sort_perm pop
  have hsne : std_sort pop ≠ [] := by
    intro h
    have h2 : ([] : List Chromosome).Perm pop := h ▸ hperm
    exact hne (List.Perm.eq_nil h2.symm)
  obtain ⟨s0, rest, hs⟩ : ∃ s0 rest, std_sort pop = s0 :: rest := by
    cases hcase : std_sort pop with
    | nil => exact absurd hcase hsne
    | cons x xs => exact ⟨x, xs, rfl⟩
  have hsorted := std_sort_sorted pop
  rw [hs] at hsorted
  have hhead : ∀ x ∈ rest, s0.fit_val ≤ x.fit_val :=
    (List.pairwise_cons.mp hsorted).1
  have h0 : ((gl_idle rng fitOf pop k).1)[0]? = some s0 := by
    unfold gl_idle
    rw [regen_from_getElem_lt rng fitOf _ _ elite_start k 0
      (by rw [elite_start_eq]; omega)]
    rw [hs]
    simp
  have hmem : s0 ∈ (gl_idle rng fitOf pop k).1 := List.getElem?_mem h0
  have hle1 : ((gl_idle rng fitOf pop k).1.map Chromosome.fit_val).minimum ≤
      (s0.fit_val : WithTop ℤ) :=
    List.minimum_le_of_mem' (List.mem_map_of_mem _ hmem)
  have heq : (pop.map Chromosome.fit_val).minimum =
      ((std_sort pop).map Chromosome.fit_val).minimum :=
    (perm_minimum (hperm.map _)).symm
  have heq2 : ((std_sort pop).map Chromosome.fit_val).minimum =
      (s0.fit_val : WithTop ℤ) := by
    rw [hs]
    apply le_antisymm
    · exact List.minimum_le_of_mem' (by simp)
    · apply List.le_minimum_of_forall_le
      intro z hz
      simp only [List.map_cons, List.mem_cons, List.mem_map] at hz
      rcases hz with rfl | ⟨x, hx, rfl⟩
      · exact le_refl _
      · exact_mod_cast hhead x hx
  rw [heq, heq2]
  exact hle1

/-- Witness: `best_monotone` on a concrete population of 30. -/
theorem best_monotone_witness :
    ((gl_idle (fun _ => 1 / 2) (fun _ => 0) (List.replicate 30 ⟨[], 0⟩) 0).1.map
        Chromosome.fit_val).minimum ≤
      ((List.replicate 30 (⟨[], 0⟩ : Chromosome)).map Chromosome.fit_val).minimum :=
  best_monotone (fun _ => 1 / 2) (fun _ => 0) (List.replicate 30 ⟨[], 0⟩) 0
    (by simp)

/-! ### C8 — alpha is fixed at OPACITY in every reachable state -/

/-- `copyVC` never writes the alpha channel. -/
theorem copyVC_c3 (s d : Tri) : (copyVC s d).c3 = d.c3 := rfl

/-- `nPointsTri` never writes the alpha channel. -/
theorem nPointsTri_c3 (u0 u1 u2 : ℚ) (ta tb tc : Tri) :
    (nPointsTri u0 u1 u2 ta tb tc).c3 = tc.c3 := by
  unfold nPointsTri
  split_ifs <;> rfl

/-- `disturbTri` never writes the alpha channel. -/
theorem disturbTri_c3 (rng : ℕ → ℚ) (d : ℚ) (k : ℕ) (t : Tri) :
    (disturbTri rng d k t).1.c3 = t.c3 := rfl

/-- `changeTri` never writes the alpha channel. -/
theorem changeTri_c3 (rng : ℕ → ℚ) (k : ℕ) (t : Tri) :
    (changeTri rng k t).1.c3 = t.c3 := rfl

/-- One-point crossover preserves the alpha invariant (alphas come from the
overwritten child slot). -/
theorem one_point_go_alpha (p : ℤ) :
    ∀ (i0 : ℕ) (a b c : List Tri), alphaTris c →
      alphaTris (one_point_go p i0 a b c) := by
  intro i0 a
  induction a generalizing i0 with
  | nil => intro b c _ t ht; simp [one_point_go] at ht
  | cons x xs ih =>
    intro b c hc t ht
    cases b with
    | nil => simp [one_point_go] at ht
    | cons y ys =>
      cases c with
      | nil => simp [one_point_go] at ht
      | cons z zs =>
        simp only [one_point_go, List.mem_cons] at ht
        rcases ht with rfl | h2
        · by_cases hp : ((i0 : ℤ) < p)
          · rw [if_pos hp, copyVC_c3]
            exact hc z (List.mem_cons_self z zs)
          · rw [if_neg hp, copyVC_c3]
            exact hc z (List.mem_cons_self z zs)
        · exact ih (i0 + 1) ys zs (fun u hu => hc u (by simp [hu])) t h2

/-- Per-vertex crossover preserves the alpha invariant. -/
theorem n_points_go_alpha (rng : ℕ → ℚ) :
    ∀ (k : ℕ) (a b c : List Tri), alphaTris c →
      alphaTris (n_points_go rng k a b c).1 := by
  intro k a
  induction a generalizing k with
  | nil => intro b c _ t ht; simp [n_points_go] at ht
  | cons x xs ih =>
    intro b c hc t ht
    cases b with
    | nil => simp [n_points_go] at ht
    | cons y ys =>
      cases c with
      | nil => simp [n_points_go] at ht
      | cons z zs =>
        simp only [n_points_go, List.mem_cons] at ht
        rcases ht with rfl | h2
        · rw [nPointsTri_c3]
          exact hc z (List.mem_cons_self z zs)
        · exact ih (k + 3) ys zs (fun u hu => hc u (by simp [hu])) t h2

/-- Disturb mutation preserves the alpha invariant. -/
theorem mutate_disturb_alpha (rng : ℕ → ℚ) (d : ℚ) :
    ∀ (k : ℕ) (ts : List Tri), alphaTris ts →
      alphaTris (mutate_disturb rng d k ts).1 := by
  intro k ts
  induction ts generalizing k with
  | nil => intro _ t ht; simp [mutate_disturb] at ht
  | cons t ts ih =>
    intro hts u hu
    simp only [mutate_disturb, List.mem_cons] at hu
    rcases hu with rfl | h2
    · rw [disturbTri_c3]
      exact hts t (List.mem_cons_self t ts)
    · exact ih _ (fun v hv => hts v (by simp [hv])) u h2

/-- Reset mutation preserves the alpha invariant. -/
theorem mutate_change_alpha (rng : ℕ → ℚ) :
    ∀ (k : ℕ) (ts : List Tri), alphaTris ts →
      alphaTris (mutate_change rng k ts).1 := by
  intro k ts
  induction ts generalizing k with
  | nil => intro _ t ht; simp [mutate_change] at ht
  | cons t ts ih =>
    intro hts u hu
    simp only [mutate_change, List.mem_cons] at hu
    rcases hu with rfl | h2
    · rw [changeTri_c3]
      exact hts t (List.mem_cons_self t ts)
    · exact ih _ (fun v hv => hts v (by simp [hv])) u h2

/-- `gen_tris` produces triangles whose alpha is the constant `OPACITY`. -/
theorem gen_tris_alpha (rng : ℕ → ℚ) :
    ∀ (n k : ℕ), alphaTris (gen_tris rng k n).1 := by
  intro n
  induction n with
  | zero => intro k t ht; simp [gen_tris] at ht
  | succ m ih =>
    intro k t ht
    simp only [gen_tris, List.mem_cons] at ht
    rcases ht with rfl | h2
    · rfl
    · exact ih (k + 9) t h2

/-- `gen_pop` establishes the alpha invariant. -/
theorem gen_pop_alpha (rng : ℕ → ℚ) :
    ∀ (k : ℕ) (l : List Chromosome), alphaInv (gen_pop rng k l).1 := by
  intro k l
  induction l generalizing k with
  | nil => intro c hc; simp [gen_pop] at hc
  | cons c cs ih =>
    intro c2 hc2
    simp only [gen_pop, List.mem_cons] at hc2
    rcases hc2 with rfl | h2
    · intro t ht
      exact gen_tris_alpha rng N k t ht
    · exact ih _ c2 h2

/-- Indexing with a default preserves the alpha invariant. -/
theorem getD_alpha {pop : List Chromosome} (h : alphaInv pop) (n : ℕ) :
    alphaTris (pop.getD n ⟨[], 0⟩).tris := by
  by_cases hn : n < pop.length
  · rw [List.getD_eq_getElem _ _ hn]
    exact h _ (List.getElem_mem hn)
  · rw [List.getD_eq_default _ _ (le_of_not_lt hn)]
    intro t ht
    simp at ht

/-- One regeneration step preserves the alpha invariant. -/
theorem regen_slot_alpha (rng : ℕ → ℚ) (fitOf : List Tri → ℤ)
    (pop : List Chromosome) (i k : ℕ) (h : alphaInv pop) :
    alphaInv (regen_slot rng fitOf pop i k).1 := by
  have hset : ∀ (ts : List Tri) (fv : ℤ), alphaTris ts →
      alphaInv (pop.set i ⟨ts, fv⟩) := by
    intro ts fv hts c hc
    rcases List.mem_or_eq_of_mem_set hc with h2 | rfl
    · exact h c h2
    · exact hts
  simp only [regen_slot]
  split_ifs
  · exact hset _ _ (one_point_go_alpha _ 0 _ _ _ (getD_alpha h i))
  · exact hset _ _ (n_points_go_alpha _ _ _ _ _ (getD_alpha h i))
  · exact hset _ _ (mutate_disturb_alpha _ _ _ _ (getD_alpha h i))
  · exact hset _ _ (mutate_change_alpha _ _ _ (getD_alpha h i))

/-- The regeneration loop preserves the alpha invariant. -/
theorem regen_from_alpha (rng : ℕ → ℚ) (fitOf : List Tri → ℤ) :
    ∀ (cnt : ℕ) (pop : List Chromosome) (i k : ℕ), alphaInv pop →
      alphaInv (regen_from rng fitOf cnt pop i k).1 := by
  intro cnt
  induction cnt with
  | zero => intro pop i k h; exact h
  | succ m ih =>
    intro pop i k h
    exact ih _ (i + 1) _ (regen_slot_alpha rng fitOf pop i k h)

/-- Sorting preserves the alpha invariant. -/
theorem std_sort_alpha {pop : List Chromosome} (h : alphaInv pop) :
    alphaInv (std_sort pop) :=
  fun c hc => h c ((std_sort_perm pop).mem_iff.mp hc)

/-- One generation preserves the alpha invariant. -/
theorem gl_idle_alpha (rng : ℕ → ℚ) (fitOf : List Tri → ℤ)
    (pop : List Chromosome) (k : ℕ) (h : alphaInv pop) :
    alphaInv (gl_idle rng fitOf pop k).1 :=
  regen_from_alpha rng fitOf _ _ elite_start k (std_sort_alpha h)

/-- Any number of generations preserves the alpha invariant. -/
theorem gl_steps_alpha (rng : ℕ → ℚ) (fitOf : List Tri → ℤ) :
    ∀ (m : ℕ) (s : List Chromosome × ℕ), alphaInv s.1 →
      alphaInv (gl_steps rng fitOf m s).1 := by
  intro m
  induction m with
  | zero => intro s h; exact h
  | succ n ih =>
    intro s h
    exact ih _ (gl_idle_alpha rng fitOf s.1 s.2 h)

/-- The initialized population satisfies the alpha invariant. -/
theorem main_init_alpha (rng : ℕ → ℚ) (fitOf : List Tri → ℤ) :
    alphaInv (main_init rng fitOf).1 := by
  apply std_sort_alpha
  intro c hc
  simp only [List.mem_map] at hc
  obtain ⟨c0, hc0, rfl⟩ := hc
  exact gen_pop_alpha rng 0 _ c0 hc0

/-- C8: `gen_pop` sets every triangle's alpha to the configured `OPACITY`, and
in every subsequent reachable state (any number of `gl_idle` generations) it
still equals `OPACITY`: neither crossover operator (`copyVC`, `nPointsTri`)
nor either mutation operator (`disturbTri`, `changeTri`) ever writes the alpha
component. -/
theorem alpha_constant (rng : ℕ → ℚ) (fitOf : List Tri → ℤ) (m : ℕ) :
    alphaInv (gl_steps rng fitOf m (main_init rng fitOf)).1 ∧
      (∀ u0 u1 u2 ta tb tc, (nPointsTri u0 u1 u2 ta tb tc).c3 = tc.c3) ∧
      (∀ s d, (copyVC s d).c3 = d.c3) ∧
      (∀ d k t, (disturbTri rng d k t).1.c3 = t.c3) ∧
      (∀ k t, (changeTri rng k t).1.c3 = t.c3) :=
  ⟨gl_steps_alpha rng fitOf m _ (main_init_alpha rng fitOf),
    nPointsTri_c3, copyVC_c3, fun d k t => disturbTri_c3 rng d k t,
    fun k t => changeTri_c3 rng k t⟩

end GeneticArt
